import Mathlib

/-!
# Hierarchical tag engine — verification development

A shallow embedding of the hierarchical tag aggregation and mutation engine
(memo tag services) together with proofs about its behaviour.

Conventions:
* Go strings are modelled as `List Char` (all inputs of interest are ASCII,
  so byte-wise and rune-wise operations coincide); the abbreviation is `Str`.
* Go maps keyed by strings are modelled as association lists in insertion
  order; claims proved below are order-independent (membership / counts).
* Fallible handlers return `Except GrpcCode resp` paired with the resulting
  store state, mirroring gRPC status codes and the fact that a handler that
  errors mid-loop keeps the mutations already committed.
-/

abbrev Str := List Char

/-! ## String helpers (models of Go `strings` functions on `List Char`) -/

/-- Model of Go `strings.TrimPrefix`: drop `pre` when it is a prefix. -/
def trimLeading (pre s : Str) : Str :=
  if pre.isPrefixOf s then s.drop pre.length else s

/-- Model of Go `strings.Trim(s, "/")`: drop leading and trailing `'/'`s. -/
def trimSlashes (s : Str) : Str :=
  ((s.dropWhile (· == '/')).reverse.dropWhile (· == '/')).reverse

/-- Model of Go `strings.ReplaceAll` for a nonempty pattern: scan left to
right, replacing non-overlapping occurrences.  (The Go corner case of an
empty pattern, which interleaves the replacement, never occurs in this
code base: every pattern starts with the `'#'` sigil.) -/
def replaceAll (s pat rep : Str) : Str :=
  match s with
  | [] => []
  | c :: rest =>
    if h : pat ≠ [] ∧ pat.isPrefixOf (c :: rest) then
      rep ++ replaceAll ((c :: rest).drop pat.length) pat rep
    else
      c :: replaceAll rest pat rep
termination_by s.length
decreasing_by
  · simp only [List.length_drop, List.length_cons]
    have hne : pat ≠ [] := h.1
    have : 1 ≤ pat.length := by
      cases pat with
      | nil => exact absurd rfl hne
      | cons a l => simp
    omega
  · simp

/-- Model of Go `strings.TrimSpace` (ASCII whitespace suffices here). -/
def trimSpace (s : Str) : Str :=
  ((s.dropWhile (·.isWhitespace)).reverse.dropWhile (·.isWhitespace)).reverse

/-! ## Content tree (`gomark` AST as used by this repository)

The tagged union of node kinds enumerated in the data model: leaf kinds
`Tag, Text, Link, AutoLink, CodeBlock, EmbeddedContent`, container kinds
with ordered child sequences. -/

inductive Node where
  | text (content : Str)
  | tag (content : Str)
  | link (url : Str)
  | autoLink (url : Str)
  | codeBlock (content : Str)
  | embeddedContent (resourceName : Str)
  | paragraph (children : List Node)
  | heading (children : List Node)
  | blockquote (children : List Node)
  | list (children : List Node)
  | orderedListItem (children : List Node)
  | unorderedListItem (children : List Node)
  | taskListItem (complete : Bool) (children : List Node)
  | bold (children : List Node)
  | italic (children : List Node)
deriving Repr

/-- Pre-order flattening of the traversal performed by `TraverseASTNodes`
(`server/runner/memopayload/runner.go`): the callback sees each node, then
the children of `Paragraph, Heading, Blockquote, List, OrderedListItem,
UnorderedListItem, TaskListItem, Bold` (note: *not* `Italic`). -/
def traverseASTNodes : List Node → List Node
  | [] => []
  | node :: rest =>
    (node ::
      match node with
      | .paragraph cs => traverseASTNodes cs
      | .heading cs => traverseASTNodes cs
      | .blockquote cs => traverseASTNodes cs
      | .list cs => traverseASTNodes cs
      | .orderedListItem cs => traverseASTNodes cs
      | .unorderedListItem cs => traverseASTNodes cs
      | .taskListItem _ cs => traverseASTNodes cs
      | .bold cs => traverseASTNodes cs
      | _ => []) ++ traverseASTNodes rest

/-- The raw-tag collection of `RebuildMemoPayload`: collect the content of
every `Tag` leaf seen by `TraverseASTNodes`, deduplicating while keeping
first-seen order (`slices.Contains` guard). -/
def collectRawTags (nodes : List Node) : List Str :=
  (traverseASTNodes nodes).foldl
    (fun tags node =>
      match node with
      | .tag c => if tags.contains c then tags else tags ++ [c]
      | _ => tags)
    []

/-- Stored cache entry (`storepb.TagNode` as persisted in the memo payload). -/
structure TagNodeP where
  name : Str
  pathSegments : List Str
deriving DecidableEq, Repr

/-- `buildTagNode` (`server/runner/memopayload/runner.go:143`): normalize the
raw tag into the cached name and path segments.  The leading `/` is added
only when the raw tag lacks one *and* contains a `/` somewhere. -/
def buildTagNode (tag : Str) : TagNodeP :=
  let name := if ¬ (['/'].isPrefixOf tag) ∧ tag.contains '/' then '/' :: tag else tag
  let pathSegments :=
    if ['/'].isPrefixOf name then
      let segments := (trimSlashes name).splitOn '/'
      if segments.length > 0 ∧ segments.headD [] ≠ [] then segments else []
    else [name]
  ⟨name, pathSegments⟩

/-- The tag-cache part of `RebuildMemoPayload`
(`server/runner/memopayload/runner.go:76`): raw tags collected from the
parsed tree, each converted by `buildTagNode`, replace the cache wholesale. -/
def rebuildTagCache (nodes : List Node) : List TagNodeP :=
  (collectRawTags nodes).map buildTagNode

/-! ### Claim C1 -/

/-- **C1 counterexample.**  The content tree of a note whose only tag is the
raw tag `work` (no `/` inside) yields a cache whose single entry is named
`work`, which does not start with `/`: `buildTagNode` adds the slash only
when the raw tag already contains a `/`. -/
theorem rebuildTagCache_work_no_slash :
    rebuildTagCache [.paragraph [.tag ['w', 'o', 'r', 'k']]]
        = [⟨['w', 'o', 'r', 'k'], [['w', 'o', 'r', 'k']]⟩] ∧
      ¬ (['/'].isPrefixOf ['w', 'o', 'r', 'k'] = true) := by
  constructor
  · simp [rebuildTagCache, collectRawTags, traverseASTNodes, buildTagNode]
  · decide

/-- **C1 (amended).**  Rebuilding the tag cache prefixes a leading `/` to a
raw tag only when the tag lacks one and contains a `/` separator somewhere;
consequently every cached name that contains a `/` starts with `/`, while a
raw tag with no `/` inside (e.g. `work`) is cached verbatim, without a
leading slash. -/
theorem rebuildTagCache_slash_normalization (nodes : List Node) (t : TagNodeP)
    (ht : t ∈ rebuildTagCache nodes) :
    (t.name.contains '/' = true → ['/'].isPrefixOf t.name = true) ∧
      (∃ raw, raw ∈ collectRawTags nodes ∧ (t.name = raw ∨ t.name = '/' :: raw)) := by
  obtain ⟨raw, hraw, hbuild⟩ := List.mem_map.mp ht
  subst hbuild
  by_cases hpre : ['/'].isPrefixOf raw = true
  · have hname : (buildTagNode raw).name = raw := by simp [buildTagNode, hpre]
    rw [hname]
    exact ⟨fun _ => hpre, raw, hraw, Or.inl rfl⟩
  · by_cases hmem : '/' ∈ raw
    · have hname : (buildTagNode raw).name = '/' :: raw := by
        simp [buildTagNode, hpre, hmem]
      rw [hname]
      refine ⟨fun _ => ?_, raw, hraw, Or.inr rfl⟩
      simp [List.isPrefixOf]
    · have hname : (buildTagNode raw).name = raw := by
        simp [buildTagNode, hpre, hmem]
      rw [hname]
      exact ⟨fun hc => absurd (by simpa using hc) hmem, raw, hraw, Or.inl rfl⟩

/-- Witness for C1 (amended) at a concrete tree containing `a/b`. -/
theorem rebuildTagCache_slash_normalization_witness :
    (⟨['/', 'a', '/', 'b'], [['a'], ['b']]⟩ : TagNodeP) ∈
        rebuildTagCache [.paragraph [.tag ['a', '/', 'b']]] ∧
      ((⟨['/', 'a', '/', 'b'], [['a'], ['b']]⟩ : TagNodeP).name.contains '/' = true →
        ['/'].isPrefixOf (⟨['/', 'a', '/', 'b'], [['a'], ['b']]⟩ : TagNodeP).name = true) := by
  have hmem : (⟨['/', 'a', '/', 'b'], [['a'], ['b']]⟩ : TagNodeP) ∈
      rebuildTagCache [.paragraph [.tag ['a', '/', 'b']]] := by
    simp [rebuildTagCache, collectRawTags, traverseASTNodes, buildTagNode, trimSlashes,
      List.splitOn]
  exact ⟨hmem,
    (rebuildTagCache_slash_normalization [.paragraph [.tag ['a', '/', 'b']]] _ hmem).1⟩

/-! ## Entities and the per-request tag aggregation (`tag_service.go`) -/

/-- An entity (memo) as the tag engine sees it: numeric id, external uid,
raw content, and the persisted tag cache (`Payload.Tags`). -/
structure MemoE where
  id : Nat
  uid : Str
  content : Str
  tags : List TagNodeP
deriving DecidableEq, Repr

/-- Aggregated, request-scoped tag node (`v1pb.TagWithMemos` together with
its embedded `TagNode`): exact path, segments, associated memo ids in
insertion order, direct/total counts, and hierarchy links. -/
structure TagWithMemos where
  name : Str
  pathSegments : List Str
  memoIds : List Str
  directMemoCount : Int
  totalMemoCount : Int
  parentPath : Option Str
  childPaths : List Str
deriving DecidableEq, Repr

/-- The `// Ensure tag path starts with /` step of `aggregateTagsFromMemos`
(`tag_service.go:307`). -/
def normalizeTagPath (tagPath : Str) : Str :=
  if ['/'].isPrefixOf tagPath then tagPath else '/' :: tagPath

/-- One `(memo, path)` step of `aggregateTagsFromMemos`
(`tag_service.go:312`): get-or-create the node keyed by the exact path,
append the memo uid to `MemoIds` if absent, and increment
`DirectMemoCount` unconditionally. -/
def aggUpsert (tagMap : List TagWithMemos) (uid : Str) (tagPath : Str) :
    List TagWithMemos :=
  if tagMap.any (fun e => e.name == tagPath) then
    tagMap.map (fun e =>
      if e.name == tagPath then
        { e with
          memoIds := if e.memoIds.contains uid then e.memoIds else e.memoIds ++ [uid]
          directMemoCount := e.directMemoCount + 1 }
      else e)
  else
    let pathSegments :=
      let segs := (trimSlashes tagPath).splitOn '/'
      if segs.length = 1 ∧ segs.headD [] = [] then [] else segs
    tagMap ++ [⟨tagPath, pathSegments, [uid], 1, 1, none, []⟩]

/-- Processing of one cached tag inside the inner loop of
`aggregateTagsFromMemos`: empty names are skipped, every other name is
normalized and upserted. -/
def aggStepTag (uid : Str) (tagMap : List TagWithMemos) (tag : TagNodeP) :
    List TagWithMemos :=
  if tag.name = [] then tagMap else aggUpsert tagMap uid (normalizeTagPath tag.name)

/-- The body of the outer loop of `aggregateTagsFromMemos`: fold over one
entity's cached tag list.  (A nil payload is the empty cache.) -/
def aggStepMemo (tagMap : List TagWithMemos) (memo : MemoE) : List TagWithMemos :=
  memo.tags.foldl (aggStepTag memo.uid) tagMap

/-- `aggregateTagsFromMemos` (`tag_service.go:293`): fold over the entity
collection and over each entity's cached tag list.  The Go map is modelled
as an association list in insertion order. -/
def aggregateTagsFromMemos (memos : List MemoE) : List TagWithMemos :=
  memos.foldl aggStepMemo []

/-- Lookup in the aggregated map (`tagMap[tagPath]`). -/
def findTag (tagMap : List TagWithMemos) (path : Str) : Option TagWithMemos :=
  tagMap.find? (fun e => e.name == path)

/-- The `directCount` stored for `path`, `0` when the node is absent. -/
def aggDirect (tagMap : List TagWithMemos) (path : Str) : Int :=
  ((findTag tagMap path).map (·.directMemoCount)).getD 0

/-- Number of `(entity, cache entry)` pairs whose nonempty entry normalizes
to exactly `p` — what `DirectMemoCount` actually counts. -/
def cachePairCount (memos : List MemoE) (p : Str) : Nat :=
  (memos.map
    (fun m => (m.tags.filter
      (fun t => !(t.name == []) && (normalizeTagPath t.name == p))).length)).sum

/-! ### Claim C5 -/

/-- A single entity whose cache holds the two distinct entries `work` and
`/work` (both producible by `buildTagNode`, from raw tags `work` and
`/work`). -/
def c5Memos : List MemoE :=
  [⟨1, "m1".toList, [], [buildTagNode "work".toList, buildTagNode "/work".toList]⟩]

/-- **C5 counterexample.**  Aggregating `c5Memos` gives `/work` a
`directCount` of `2`, although only one distinct entity exists (and only
one cache even contains the exact path `/work`): both cache entries of the
single entity normalize to `/work` and each increments the counter. -/
theorem aggregate_directCount_two_for_one_entity :
    (findTag (aggregateTagsFromMemos c5Memos) "/work".toList).map (·.directMemoCount)
        = some 2 ∧
      (c5Memos.filter (fun m => (m.tags.map (·.name)).contains "/work".toList)).length
        = 1 := by
  constructor
  · decide
  · decide

private def aggBump (uid tagPath : Str) (e : TagWithMemos) : TagWithMemos :=
  if e.name == tagPath then
    { e with
      memoIds := if e.memoIds.contains uid then e.memoIds else e.memoIds ++ [uid]
      directMemoCount := e.directMemoCount + 1 }
  else e

private lemma find?_map_name_preserving (tm : List TagWithMemos)
    (f : TagWithMemos → TagWithMemos) (hf : ∀ e, (f e).name = e.name) (p : Str) :
    (tm.map f).find? (fun e => e.name == p) = (tm.find? (fun e => e.name == p)).map f := by
  induction tm with
  | nil => rfl
  | cons e rest ih =>
    by_cases he : (e.name == p) = true
    · simp [List.find?, hf, he]
    · simp only [List.map_cons, List.find?, hf, he]
      simpa [he] using ih

private lemma aggDirect_aggUpsert (tm : List TagWithMemos) (uid q p : Str) :
    aggDirect (aggUpsert tm uid q) p = aggDirect tm p + (if q = p then 1 else 0) := by
  by_cases hany : (tm.any (fun e => e.name == q)) = true
  · have hmap : aggUpsert tm uid q = tm.map (aggBump uid q) := by
      simp [aggUpsert, hany, aggBump]
    rw [hmap]
    have hf : ∀ e, (aggBump uid q e).name = e.name := by
      intro e; unfold aggBump; split <;> rfl
    unfold aggDirect findTag
    rw [find?_map_name_preserving tm _ hf p]
    cases hfind : tm.find? (fun e => e.name == p) with
    | none =>
      have hne : ¬ q = p := by
        intro hqp
        subst hqp
        obtain ⟨e, he, hq⟩ := List.any_eq_true.mp hany
        have h2 : ∀ x ∈ tm, ¬ x.name = q := by
          have h3 := List.find?_eq_none.mp hfind
          intro x hx
          simpa using h3 x hx
        exact (h2 e he) (by simpa using hq)
      simp [hfind, hne]
    | some e =>
      have hname : e.name = p := by
        have := List.find?_some hfind
        simpa using this
      by_cases hqp : q = p
      · subst hqp
        simp [hfind, aggBump, hname]
      · have hne : ¬ (e.name = q) := by
          rw [hname]; exact fun h => hqp h.symm
        simp [hfind, aggBump, hne, hqp]
  · have happ : aggUpsert tm uid q =
        tm ++ [⟨q,
          (if ((trimSlashes q).splitOn '/').length = 1 ∧
              ((trimSlashes q).splitOn '/').headD [] = []
            then [] else (trimSlashes q).splitOn '/'),
          [uid], 1, 1, none, []⟩] := by
      simp [aggUpsert, hany]
    rw [happ]
    have hnone : tm.find? (fun e => e.name == q) = none := by
      rw [List.find?_eq_none]
      intro x hx
      have h2 : ∀ x ∈ tm, ¬ x.name = q := by simpa using hany
      simpa using h2 x hx
    unfold aggDirect findTag
    rw [List.find?_append]
    by_cases hqp : q = p
    · subst hqp
      simp [hnone]
    · have hqp' : (q == p) = false := by simpa using hqp
      cases hfind : tm.find? (fun e => e.name == p) with
      | none => simp [hfind, List.find?, hqp', hqp]
      | some e => simp [hfind, hqp]

private lemma aggDirect_tags_foldl (uid p : Str) (tags : List TagNodeP) :
    ∀ tm, aggDirect (tags.foldl (aggStepTag uid) tm) p
      = aggDirect tm p +
        ((tags.filter
          (fun t => !(t.name == []) && (normalizeTagPath t.name == p))).length : Int) := by
  induction tags with
  | nil => intro tm; simp
  | cons t rest ih =>
    intro tm
    by_cases hemp : t.name = []
    · rw [List.foldl_cons]
      have hstep : aggStepTag uid tm t = tm := by simp [aggStepTag, hemp]
      rw [hstep, ih tm]
      simp [hemp]
    · rw [List.foldl_cons]
      have hstep : aggStepTag uid tm t = aggUpsert tm uid (normalizeTagPath t.name) := by
        simp [aggStepTag, hemp]
      rw [hstep, ih _, aggDirect_aggUpsert]
      by_cases hq : normalizeTagPath t.name = p
      · rw [if_pos hq]
        have hcond : (!(t.name == []) && (normalizeTagPath t.name == p)) = true := by
          simp [hemp, hq]
        have hfe : List.filter
              (fun t => !(t.name == []) && (normalizeTagPath t.name == p)) (t :: rest)
            = t :: List.filter
              (fun t => !(t.name == []) && (normalizeTagPath t.name == p)) rest := by
          rw [List.filter_cons, if_pos hcond]
        rw [hfe, List.length_cons]
        push_cast
        ring
      · simp only [List.filter_cons]
        have hq' : (normalizeTagPath t.name == p) = false := by simpa using hq
        simp [hq', hq]

private lemma aggDirect_memos_foldl (p : Str) (memos : List MemoE) :
    ∀ tm, aggDirect (memos.foldl aggStepMemo tm) p
      = aggDirect tm p + (cachePairCount memos p : Int) := by
  induction memos with
  | nil => intro tm; simp [cachePairCount]
  | cons m rest ih =>
    intro tm
    rw [List.foldl_cons, ih _]
    show aggDirect (aggStepMemo tm m) p + _ = _
    unfold aggStepMemo
    rw [aggDirect_tags_foldl m.uid p m.tags tm]
    unfold cachePairCount
    simp only [List.map_cons, List.sum_cons]
    push_cast
    ring

/-- **C5 (amended).**  In every aggregated map, the `directCount` stored for
a path equals the number of `(entity, cache entry)` pairs whose nonempty
entry normalizes (by prefixing `/` when absent) to exactly that path: each
entity contributes once per such cache entry, so an entity whose cache
holds two entries that normalize to the same path (e.g. `work` and `/work`)
contributes two. -/
theorem aggregate_directCount_pairs (memos : List MemoE) (p : Str)
    (node : TagWithMemos)
    (h : findTag (aggregateTagsFromMemos memos) p = some node) :
    node.directMemoCount = (cachePairCount memos p : Int) := by
  have hfold := aggDirect_memos_foldl p memos []
  unfold aggregateTagsFromMemos at h
  have hleft : aggDirect (memos.foldl aggStepMemo []) p = node.directMemoCount := by
    simp [aggDirect, findTag] at *
    simp [h]
  have hempty : aggDirect [] p = 0 := by simp [aggDirect, findTag]
  rw [hleft, hempty] at hfold
  simpa using hfold

/-- Witness for C5 (amended): one entity with single cache entry `work`
gives `/work` a direct count of `1 = cachePairCount`. -/
theorem aggregate_directCount_pairs_witness :
    (⟨"/work".toList, ["work".toList], ["m1".toList], 1, 1, none, []⟩ : TagWithMemos).directMemoCount
      = (cachePairCount [⟨1, "m1".toList, [], [buildTagNode "work".toList]⟩] "/work".toList : Int) :=
  aggregate_directCount_pairs
    [⟨1, "m1".toList, [], [buildTagNode "work".toList]⟩] "/work".toList
    ⟨"/work".toList, ["work".toList], ["m1".toList], 1, 1, none, []⟩ (by decide)

/-! ## Hierarchy builder (`addHierarchyInformation`, `tag_service.go:344`) -/

/-- The direct-child test inside the "Find children" loop
(`tag_service.go:354`): `otherPath` differs from `tagPath`, starts with
`tagPath + "/"`, and the remainder after `strings.TrimPrefix` contains no
further `/`. -/
def isDirectChild (tagPath otherPath : Str) : Bool :=
  (!(otherPath == tagPath)) && ((tagPath ++ ['/']).isPrefixOf otherPath) &&
    (!((trimLeading (tagPath ++ ['/']) otherPath).contains '/'))

/-- The key set of the Go map `tagMap` built at the top of
`addHierarchyInformation` (keyed by exact tag name; order immaterial). -/
def mapKeys (tags : List TagWithMemos) : List Str :=
  (tags.map (·.name)).dedup

/-- The `ChildPaths` list computed for `tag` by `addHierarchyInformation`:
every key of the aggregated map passing the direct-child test. -/
def childPathsFor (tags : List TagWithMemos) (tag : TagWithMemos) : List Str :=
  (mapKeys tags).filter (fun other => isDirectChild tag.name other)

/-- The spec's notion of a direct child: `O` starts with `P + "/"` and the
remainder after stripping that prefix contains no further `/`. -/
def specDirectChild (ppath opath : Str) : Prop :=
  (ppath ++ ['/']).isPrefixOf opath = true ∧
    ¬ (((opath.drop (ppath ++ ['/']).length).contains '/') = true)

private lemma isPrefixOf_length_le :
    ∀ (l₁ l₂ : Str), l₁.isPrefixOf l₂ = true → l₁.length ≤ l₂.length := by
  intro l₁
  induction l₁ with
  | nil => intro l₂ _; simp
  | cons a as ih =>
    intro l₂ h
    cases l₂ with
    | nil => simp [List.isPrefixOf] at h
    | cons b bs =>
      simp only [List.isPrefixOf, Bool.and_eq_true] at h
      have := ih bs h.2
      simp only [List.length_cons]
      omega

/-! ### Claim C6 -/

/-- **C6.**  For nodes `P` and `O` of the aggregated map, `O` is listed in
`childPaths(P)` iff `O`'s path starts with `P`'s path followed by `/` and
the remainder after stripping that prefix contains no further `/` (exactly
one level deeper; grandchildren excluded; the code's extra `otherPath !=
tagPath` test is implied by the prefix test). -/
theorem childPaths_mem_iff (tags : List TagWithMemos) (P O : TagWithMemos)
    (hP : P ∈ tags) (hO : O ∈ tags) :
    O.name ∈ childPathsFor tags P ↔ specDirectChild P.name O.name := by
  unfold childPathsFor specDirectChild
  rw [List.mem_filter]
  have hkey : O.name ∈ mapKeys tags :=
    List.mem_dedup.mpr (List.mem_map_of_mem _ hO)
  constructor
  · rintro ⟨-, hcond⟩
    have hcond' : isDirectChild P.name O.name = true := hcond
    unfold isDirectChild at hcond'
    rw [Bool.and_eq_true, Bool.and_eq_true] at hcond'
    obtain ⟨⟨hne, hpre⟩, hrem⟩ := hcond'
    refine ⟨hpre, ?_⟩
    have hrem' : ((trimLeading (P.name ++ ['/']) O.name).contains '/') = false := by
      simpa using hrem
    unfold trimLeading at hrem'
    rw [if_pos hpre, List.length_append] at hrem'
    simpa using hrem'
  · rintro ⟨hpre, hrem⟩
    refine ⟨hkey, ?_⟩
    have hne : (O.name == P.name) = false := by
      have hlen := isPrefixOf_length_le _ _ hpre
      rw [List.length_append] at hlen
      simp only [beq_eq_false_iff_ne]
      intro he
      rw [he] at hlen
      simp at hlen
    have hrem' : ((trimLeading (P.name ++ ['/']) O.name).contains '/') = false := by
      unfold trimLeading
      rw [if_pos hpre]
      simpa using hrem
    show isDirectChild P.name O.name = true
    unfold isDirectChild
    rw [hne, hpre, hrem']
    simp

/-- Concrete tags for the C6 witness. -/
def c6Tags : List TagWithMemos :=
  [⟨"/w".toList, ["w".toList], ["m1".toList], 1, 1, none, []⟩,
   ⟨"/w/x".toList, ["w".toList, "x".toList], ["m2".toList], 1, 1, none, []⟩]

/-- Witness for C6: in `c6Tags`, `/w/x` is a direct child of `/w`. -/
theorem childPaths_mem_iff_witness :
    "/w/x".toList ∈
      childPathsFor c6Tags (⟨"/w".toList, ["w".toList], ["m1".toList], 1, 1, none, []⟩ : TagWithMemos) :=
  (childPaths_mem_iff c6Tags
      ⟨"/w".toList, ["w".toList], ["m1".toList], 1, 1, none, []⟩
      ⟨"/w/x".toList, ["w".toList, "x".toList], ["m2".toList], 1, 1, none, []⟩
      (by decide) (by decide)).mpr ⟨by decide, by decide⟩

/-! ## Total count (`calculateTotalMemoCount`, `tag_service.go:378`)

The Go function threads one `visited` set (a Go map passed by reference)
through the entire recursion; the model passes it explicitly and returns
the grown set.  Termination — even on a cyclic `childPaths` relation — is
by well-founded recursion on the number of map entries not yet visited,
which is exactly the argument the visited-set guard implements. -/

/-- Lookup `child, exists := tagMap[childPath]` (the aggregated map is keyed
by tag name): the first entry with that name, packaged with the fact that
it comes from the map. -/
def lookupTagW : (m : List TagWithMemos) → (path : Str) → Option {t : TagWithMemos // t ∈ m}
  | [], _ => none
  | t :: rest, path =>
    if t.name == path then some ⟨t, List.mem_cons_self t rest⟩
    else
      match lookupTagW rest path with
      | none => none
      | some ⟨u, hu⟩ => some ⟨u, List.mem_cons_of_mem _ hu⟩

/-- Number of map entries whose name has not been visited yet: the
termination measure of the visited-set recursion. -/
def unvisitedCount (m : List TagWithMemos) (visited : List Str) : Nat :=
  (m.filter (fun t => !(visited.contains t.name))).length

private lemma filter_cons_pos' {α} (p : α → Bool) (a : α) (l : List α)
    (h : p a = true) : List.filter p (a :: l) = a :: List.filter p l := by
  simp [List.filter_cons, h]

private lemma filter_cons_neg' {α} (p : α → Bool) (a : α) (l : List α)
    (h : p a = false) : List.filter p (a :: l) = List.filter p l := by
  simp [List.filter_cons, h]

private lemma unvisitedCount_mono (m : List TagWithMemos) (v1 v2 : List Str)
    (h : ∀ x ∈ v1, x ∈ v2) : unvisitedCount m v2 ≤ unvisitedCount m v1 := by
  unfold unvisitedCount
  apply List.Sublist.length_le
  apply List.monotone_filter_right
  intro t ht
  simp only [Bool.not_eq_true'] at ht ⊢
  have ht' : t.name ∉ v2 := by simpa using ht
  have : t.name ∉ v1 := fun hx => ht' (h _ hx)
  simpa using this

private lemma unvisitedCount_lt (m : List TagWithMemos) (visited : List Str)
    (tag : TagWithMemos) (hm : tag ∈ m) (hv : tag.name ∉ visited) :
    unvisitedCount m (tag.name :: visited) < unvisitedCount m visited := by
  unfold unvisitedCount
  induction m with
  | nil => cases hm
  | cons t rest ih =>
    rcases List.mem_cons.mp hm with heq | hmem
    · subst heq
      rw [filter_cons_neg' _ _ _ (by simp),
        filter_cons_pos' _ _ _ (by simpa using hv)]
      have hmono : unvisitedCount rest (tag.name :: visited) ≤ unvisitedCount rest visited :=
        unvisitedCount_mono rest visited (tag.name :: visited)
          (fun x hx => List.mem_cons_of_mem _ hx)
      unfold unvisitedCount at hmono
      simp only [List.length_cons]
      omega
    · have ihr := ih hmem
      by_cases hc : t.name ∈ visited
      · rw [filter_cons_neg' _ _ _ (by simp [List.mem_cons_of_mem _ hc]),
          filter_cons_neg' _ _ _ (by simpa using hc)]
        exact ihr
      · by_cases he : t.name = tag.name
        · rw [filter_cons_neg' _ _ _ (by simp [he]),
            filter_cons_pos' _ _ _ (by simpa using hc)]
          have hmono : unvisitedCount rest (tag.name :: visited) ≤ unvisitedCount rest visited :=
            unvisitedCount_mono rest visited (tag.name :: visited)
              (fun x hx => List.mem_cons_of_mem _ hx)
          unfold unvisitedCount at hmono
          simp only [List.length_cons]
          omega
        · rw [filter_cons_pos' _ _ _ (by simp [List.mem_cons, he, hc]),
            filter_cons_pos' _ _ _ (by simpa using hc)]
          simp only [List.length_cons]
          omega

mutual
/-- `calculateTotalMemoCount` restricted to a tag known to be in the map
(every recursive call resolves through the map): guard on the visited set,
then `DirectMemoCount` plus the children's recursive totals.  The result
carries the fact that the visited set only grows, which both justifies
termination and mirrors the shared mutable Go map. -/
def calcTotalIn (m : List TagWithMemos) (tag : TagWithMemos) (visited : List Str)
    (hm : tag ∈ m) : {r : Int × List Str // ∀ x ∈ visited, x ∈ r.2} :=
  if h : visited.contains tag.name then ⟨(0, visited), fun _ hx => hx⟩
  else
    let r := calcChildren m tag.childPaths (tag.name :: visited)
    ⟨(tag.directMemoCount + r.1.1, r.1.2),
      fun x hx => r.2 x (List.mem_cons_of_mem _ hx)⟩
termination_by (unvisitedCount m visited, 0)
decreasing_by
  apply Prod.Lex.left
  exact unvisitedCount_lt m visited tag hm (by simpa using h)

/-- The `for _, childPath := range tag.ChildPaths` loop of
`calculateTotalMemoCount`: each child found in the map contributes its
recursive total, the visited set threading left to right. -/
def calcChildren (m : List TagWithMemos) (children : List Str) (visited : List Str) :
    {r : Int × List Str // ∀ x ∈ visited, x ∈ r.2} :=
  match children with
  | [] => ⟨(0, visited), fun _ hx => hx⟩
  | c :: rest =>
    match lookupTagW m c with
    | none => calcChildren m rest visited
    | some ⟨child, hchild⟩ =>
      let r1 := calcTotalIn m child visited hchild
      let r2 := calcChildren m rest r1.1.2
      ⟨(r1.1.1 + r2.1.1, r2.1.2), fun x hx => r2.2 x (r1.2 x hx)⟩
termination_by (unvisitedCount m visited, children.length + 1)
decreasing_by
  · apply Prod.Lex.right
    simp only [List.length_cons]
    omega
  · apply Prod.Lex.right
    simp only [List.length_cons]
    omega
  · have hmono : unvisitedCount m r1.1.2 ≤ unvisitedCount m visited :=
      unvisitedCount_mono m visited r1.1.2 r1.2
    rcases Nat.lt_or_ge (unvisitedCount m r1.1.2) (unvisitedCount m visited) with hlt | hge
    · exact Prod.Lex.left _ _ hlt
    · have heq : unvisitedCount m r1.1.2 = unvisitedCount m visited := by omega
      rw [heq]
      apply Prod.Lex.right
      simp only [List.length_cons]
      omega
end

/-- `calculateTotalMemoCount` (`tag_service.go:378`): the public entry,
identical in body to `calcTotalIn` but without the map-membership fact
(the top-level tag comes from the caller's own list). -/
def calculateTotalMemoCount (m : List TagWithMemos) (tag : TagWithMemos)
    (visited : List Str) : Int × List Str :=
  if visited.contains tag.name then (0, visited)
  else
    let r := calcChildren m tag.childPaths (tag.name :: visited)
    (tag.directMemoCount + r.1.1, r.1.2)

/-! ### Claim C7 -/

/-- The manufactured cyclic aggregated map of the claim: node `/a` lists
`/b` as a child and `/b` lists `/a`. -/
def cyclicTagMap : List TagWithMemos :=
  [⟨['/', 'a'], [['a']], [['m', '1']], 1, 1, none, [['/', 'b']]⟩,
   ⟨['/', 'b'], [['b']], [['m', '2']], 1, 1, none, [['/', 'a']]⟩]

/-- **C7.**  On the manufactured cyclic map the totalCount computation
terminates and returns the finite value `2` (each node's direct count
counted exactly once; the visited set stops the `/a → /b → /a` cycle).
Termination for *every* map is established by the well-founded definition
of `calcTotalIn`/`calcChildren` above, whose measure is the number of
unvisited map entries. -/
theorem calculateTotalMemoCount_cycle_terminates :
    (calculateTotalMemoCount cyclicTagMap
      ⟨['/', 'a'], [['a']], [['m', '1']], 1, 1, none, [['/', 'b']]⟩ []).1 = 2 := by
  simp +decide [calculateTotalMemoCount, calcTotalIn, calcChildren, lookupTagW, cyclicTagMap,
    List.find?]

/-! ### Claim C10 -/

/-- Sum of the `directCount`s of the map entries not yet visited. -/
def unvisitedDirectSum (m : List TagWithMemos) (visited : List Str) : Int :=
  ((m.filter (fun t => !(visited.contains t.name))).map (·.directMemoCount)).sum

private lemma unvisitedDirectSum_nonneg (m : List TagWithMemos) (visited : List Str)
    (hpos : ∀ t ∈ m, 0 ≤ t.directMemoCount) : 0 ≤ unvisitedDirectSum m visited := by
  unfold unvisitedDirectSum
  apply List.sum_nonneg
  intro x hx
  obtain ⟨t, ht, rfl⟩ := List.mem_map.mp hx
  exact hpos t (List.mem_of_mem_filter ht)

private lemma unvisitedDirectSum_insert (tag : TagWithMemos) (visited : List Str)
    (hv : tag.name ∉ visited) :
    ∀ m : List TagWithMemos, tag ∈ m → (m.map (·.name)).Nodup →
      unvisitedDirectSum m visited
        = tag.directMemoCount + unvisitedDirectSum m (tag.name :: visited) := by
  intro m
  induction m with
  | nil => intro hm _; cases hm
  | cons t rest ih =>
    intro hm hnd
    have hnd' : (rest.map (·.name)).Nodup := (List.nodup_cons.mp (by simpa using hnd)).2
    have htn : t.name ∉ rest.map (·.name) := (List.nodup_cons.mp (by simpa using hnd)).1
    unfold unvisitedDirectSum
    rcases List.mem_cons.mp hm with heq | hmem
    · subst heq
      rw [filter_cons_pos' _ _ _ (by simpa using hv),
        filter_cons_neg' _ _ _ (by simp)]
      simp only [List.map_cons, List.sum_cons]
      have hsame : rest.filter (fun u => !(visited.contains u.name))
          = rest.filter (fun u => !((tag.name :: visited).contains u.name)) := by
        apply List.filter_congr
        intro x hx
        have hxn : x.name ≠ tag.name := by
          intro he
          exact htn (he ▸ List.mem_map_of_mem _ hx)
        simp [List.mem_cons, hxn]
      rw [hsame]
    · have htagname : t.name ≠ tag.name := by
        intro he
        have : tag.name ∈ rest.map (·.name) := List.mem_map_of_mem _ hmem
        exact htn (he ▸ this)
      have ihr := ih hmem hnd'
      unfold unvisitedDirectSum at ihr
      by_cases hc : t.name ∈ visited
      · rw [filter_cons_neg' _ _ _ (by simpa using hc),
          filter_cons_neg' _ _ _ (by simp [List.mem_cons_of_mem _ hc])]
        exact ihr
      · rw [filter_cons_pos' _ _ _ (by simpa using hc),
          filter_cons_pos' _ _ _ (by simp [List.mem_cons, htagname, hc])]
        simp only [List.map_cons, List.sum_cons]
        rw [ihr]
        ring

mutual
private theorem calcTotalIn_bound (m : List TagWithMemos) (tag : TagWithMemos)
    (visited : List Str) (hm : tag ∈ m) (hnd : (m.map (·.name)).Nodup) :
    (calcTotalIn m tag visited hm).1.1
        + unvisitedDirectSum m (calcTotalIn m tag visited hm).1.2
      ≤ unvisitedDirectSum m visited := by
  by_cases hcv : (visited.contains tag.name) = true
  · have hstep1 : (calcTotalIn m tag visited hm).1.1 = 0 := by
      simp only [calcTotalIn]
      rw [dif_pos hcv]
    have hstep2 : (calcTotalIn m tag visited hm).1.2 = visited := by
      simp only [calcTotalIn]
      rw [dif_pos hcv]
    rw [hstep1, hstep2]
    simp
  · have hv : tag.name ∉ visited := by simpa using hcv
    have hstep1 : (calcTotalIn m tag visited hm).1.1
        = tag.directMemoCount
          + (calcChildren m tag.childPaths (tag.name :: visited)).1.1 := by
      simp only [calcTotalIn]
      rw [dif_neg hcv]
    have hstep2 : (calcTotalIn m tag visited hm).1.2
        = (calcChildren m tag.childPaths (tag.name :: visited)).1.2 := by
      simp only [calcTotalIn]
      rw [dif_neg hcv]
    rw [hstep1, hstep2]
    have hsplit := unvisitedDirectSum_insert tag visited hv m hm hnd
    have hb := calcChildren_bound m tag.childPaths (tag.name :: visited) hnd
    linarith
termination_by (unvisitedCount m visited, 0)
decreasing_by
  apply Prod.Lex.left
  exact unvisitedCount_lt m visited tag hm hv

private theorem calcChildren_bound (m : List TagWithMemos) (children : List Str)
    (visited : List Str) (hnd : (m.map (·.name)).Nodup) :
    (calcChildren m children visited).1.1
        + unvisitedDirectSum m (calcChildren m children visited).1.2
      ≤ unvisitedDirectSum m visited := by
  cases children with
  | nil =>
    have hstep1 : (calcChildren m [] visited).1.1 = 0 := by
      simp only [calcChildren]
    have hstep2 : (calcChildren m [] visited).1.2 = visited := by
      simp only [calcChildren]
    rw [hstep1, hstep2]
    simp
  | cons c rest =>
    cases hlk : lookupTagW m c with
    | none =>
      have hstep1 : (calcChildren m (c :: rest) visited).1.1
          = (calcChildren m rest visited).1.1 := by
        simp only [calcChildren]
        rw [hlk]
      have hstep2 : (calcChildren m (c :: rest) visited).1.2
          = (calcChildren m rest visited).1.2 := by
        simp only [calcChildren]
        rw [hlk]
      rw [hstep1, hstep2]
      exact calcChildren_bound m rest visited hnd
    | some cm =>
      obtain ⟨child, hchild⟩ := cm
      have hstep1 : (calcChildren m (c :: rest) visited).1.1
          = (calcTotalIn m child visited hchild).1.1
            + (calcChildren m rest (calcTotalIn m child visited hchild).1.2).1.1 := by
        simp only [calcChildren]
        rw [hlk]
      have hstep2 : (calcChildren m (c :: rest) visited).1.2
          = (calcChildren m rest (calcTotalIn m child visited hchild).1.2).1.2 := by
        simp only [calcChildren]
        rw [hlk]
      rw [hstep1, hstep2]
      have h1 := calcTotalIn_bound m child visited hchild hnd
      have h2 := calcChildren_bound m rest (calcTotalIn m child visited hchild).1.2 hnd
      linarith
termination_by (unvisitedCount m visited, children.length + 1)
decreasing_by
  · apply Prod.Lex.right
    simp only [List.length_cons]
    omega
  · apply Prod.Lex.right
    simp only [List.length_cons]
    omega
  · have hmono : unvisitedCount m (calcTotalIn m child visited hchild).1.2
        ≤ unvisitedCount m visited :=
      unvisitedCount_mono m visited _ (calcTotalIn m child visited hchild).2
    rcases Nat.lt_or_ge (unvisitedCount m (calcTotalIn m child visited hchild).1.2)
        (unvisitedCount m visited) with hlt | hge
    · exact Prod.Lex.left _ _ hlt
    · have heq : unvisitedCount m (calcTotalIn m child visited hchild).1.2
          = unvisitedCount m visited := by omega
      rw [heq]
      apply Prod.Lex.right
      simp only [List.length_cons]
      omega
end

private lemma calculateTotalMemoCount_eq_calcTotalIn (m : List TagWithMemos)
    (tag : TagWithMemos) (visited : List Str) (hm : tag ∈ m) :
    calculateTotalMemoCount m tag visited = (calcTotalIn m tag visited hm).1 := by
  by_cases hcv : (visited.contains tag.name) = true
  · unfold calculateTotalMemoCount
    rw [if_pos hcv]
    simp only [calcTotalIn]
    rw [dif_pos hcv]
  · unfold calculateTotalMemoCount
    rw [if_neg hcv]
    simp only [calcTotalIn]
    rw [dif_neg hcv]

/-- **C10.**  Within one totalCount computation the visited set is shared
across the entire recursion, so every node of an aggregated map (distinct
names, as Go map keys are, and nonnegative direct counts, as aggregation
produces) contributes its `directCount` at most once: for every map shape,
including shared descendants and cycles, the computed `totalCount(P)` never
exceeds the sum of `directCount` over all nodes of the map. -/
theorem totalCount_le_directSum (m : List TagWithMemos) (tag : TagWithMemos)
    (hm : tag ∈ m) (hnd : (m.map (·.name)).Nodup)
    (hpos : ∀ t ∈ m, 0 ≤ t.directMemoCount) :
    (calculateTotalMemoCount m tag []).1 ≤ (m.map (·.directMemoCount)).sum := by
  rw [calculateTotalMemoCount_eq_calcTotalIn m tag [] hm]
  have hb := calcTotalIn_bound m tag [] hm hnd
  have hnn := unvisitedDirectSum_nonneg m (calcTotalIn m tag [] hm).1.2 hpos
  have hfull : unvisitedDirectSum m [] = (m.map (·.directMemoCount)).sum := by
    unfold unvisitedDirectSum
    have hid : m.filter (fun t => !(([] : List Str).contains t.name)) = m :=
      List.filter_eq_self.mpr (fun a _ => by simp)
    rw [hid]
  linarith

/-- Witness for C10 on the cyclic two-node map. -/
theorem totalCount_le_directSum_witness :
    (calculateTotalMemoCount cyclicTagMap
        ⟨['/', 'a'], [['a']], [['m', '1']], 1, 1, none, [['/', 'b']]⟩ []).1
      ≤ (cyclicTagMap.map (·.directMemoCount)).sum :=
  totalCount_le_directSum cyclicTagMap
    ⟨['/', 'a'], [['a']], [['m', '1']], 1, 1, none, [['/', 'b']]⟩
    (by decide) (by decide) (by decide)

/-! ## Entity store and mutation engine (`tag_service.go`, memo service)

The entity store (`store.Store`) is not part of the core sources; its
operations are modelled from the spec's external interface: `ListEntities`
filters by opaque tag predicates over the persisted caches, `UpdateEntity`
updates exactly the fields provided, `DeleteEntity` removes the entity.
The store below holds the single user's memos (ownership filtering is the
collaborator's responsibility). -/

/-- gRPC status codes used by the handlers. -/
inductive GrpcCode where
  | invalidArgument
  | notFound
  | internal
deriving DecidableEq, Repr

instance {ε α : Type} [DecidableEq ε] [DecidableEq α] : DecidableEq (Except ε α)
  | .error e1, .error e2 =>
    decidable_of_iff (e1 = e2) ⟨fun h => by rw [h], fun h => by injection h⟩
  | .error _, .ok _ => isFalse (fun h => Except.noConfusion h)
  | .ok _, .error _ => isFalse (fun h => Except.noConfusion h)
  | .ok a1, .ok a2 =>
    decidable_of_iff (a1 = a2) ⟨fun h => by rw [h], fun h => by injection h⟩

/-- Modelled from the spec: `UpdateEntity(id, content?)` — the store writes
exactly the fields provided, so an update that carries only `Content`
leaves the persisted tag cache untouched. -/
def updateMemoContent (st : List MemoE) (id : Nat) (content : Str) : List MemoE :=
  st.map (fun m => if m.id = id then { m with content := content } else m)

/-- Modelled from the spec: `DeleteEntity(id)`. -/
def deleteMemo (st : List MemoE) (id : Nat) : List MemoE :=
  st.filter (fun m => !(m.id == id))

/-- Modelled from the spec: the store filter `tag in ["p"]` — exact
cache-membership selection. -/
def listMemosWithTag (st : List MemoE) (p : Str) : List MemoE :=
  st.filter (fun m => (m.tags.map (·.name)).contains p)

/-- Modelled from the spec: the store filter `tag starts_with ["p"]` used
with `includeChildren` — "cache contains some path equal to or prefixed by
`path + \"/\"`". -/
def listMemosWithTagPrefixed (st : List MemoE) (p : Str) : List MemoE :=
  st.filter (fun m => m.tags.any (fun t => t.name == p || (p ++ ['/']).isPrefixOf t.name))

/-- Response of `RenameTag`. -/
structure RenameResp where
  affectedMemoIds : List Str
  renamedPaths : List (Str × Str)
deriving DecidableEq, Repr

/-- `RenameTag` (`tag_service.go:126`): validate and `/`-prefix the new
path, select memos whose cache contains the old path exactly (the
`moveChildren` branch builds the same filter and the same replacement),
rewrite each selected memo's raw content by substring replacement of the
`#`-marker, and persist the new content only: the update sent to the store
carries `Content` but no payload, so the tag cache is not re-extracted. -/
def RenameTag (st : List MemoE) (oldTagPath newTagPath0 : Str)
    (moveChildren : Bool) : Except GrpcCode RenameResp × List MemoE :=
  if newTagPath0 = [] then (.error .invalidArgument, st)
  else
    let newTagPath := if ['/'].isPrefixOf newTagPath0 then newTagPath0 else '/' :: newTagPath0
    let memos := listMemosWithTag st oldTagPath
    if memos = [] then (.error .notFound, st)
    else
      let oldTag := '#' :: trimLeading ['/'] oldTagPath
      let newTag := '#' :: trimLeading ['/'] newTagPath
      let st' := memos.foldl
        (fun acc m => updateMemoContent acc m.id (replaceAll m.content oldTag newTag)) st
      (.ok ⟨memos.map (·.uid), [(oldTagPath, newTagPath)]⟩, st')

/-! ### Claim C2 -/

/-- **C2 (evaluation at the failing input).**  `RenameTag("work" →
"office")` on a store whose only memo has content `see #work` and cache
entry `work` succeeds and rewrites the persisted content, but the
persisted cache still holds the old name `work`: the handler updates
`Content` only and never rebuilds or persists the payload (every other
content-writing handler in the repository calls `RebuildMemoPayload` and
sends `Payload` along). -/
theorem renameTag_leaves_cache_stale :
    RenameTag [⟨1, "m1".toList, "see #work".toList, [buildTagNode "work".toList]⟩]
        "work".toList "office".toList false
      = (.ok ⟨["m1".toList], [("work".toList, "/office".toList)]⟩,
         [⟨1, "m1".toList, "see #office".toList, [⟨"work".toList, ["work".toList]⟩]⟩]) := by
  simp +decide [RenameTag, listMemosWithTag, updateMemoContent, trimLeading,
    buildTagNode, replaceAll, trimSlashes]

/-- Response of `DeleteTag`. -/
structure DeleteTagResp where
  affectedMemoIds : List Str
  deletedTagPaths : List Str
deriving DecidableEq, Repr

/-- Delete strategies.  The proto enum is open; `unspecified` stands for
every value other than the two recognized ones (the Go `switch` sends all
of them to `default`). -/
inductive DeleteStrategy where
  | unspecified
  | removeFromContent
  | deleteRelatedMemos
deriving DecidableEq, Repr

/-- `DeleteTag` (`tag_service.go:219`): select memos whose cache contains
the path exactly, then switch on the strategy: `REMOVE_FROM_CONTENT`
substring-strips the marker (first with one trailing space, then bare) and
trims the content, persisting content only; `DELETE_RELATED_MEMOS` deletes
every selected memo; any other strategy fails with InvalidArgument before
any store write. -/
def DeleteTag (st : List MemoE) (tagPath : Str) (strategy : DeleteStrategy) :
    Except GrpcCode DeleteTagResp × List MemoE :=
  let memos := listMemosWithTag st tagPath
  let deletedTagPaths := [tagPath]
  match strategy with
  | .removeFromContent =>
    let tagToRemove := '#' :: trimLeading ['/'] tagPath
    let st' := memos.foldl
      (fun acc m =>
        let c1 := replaceAll m.content (tagToRemove ++ [' ']) []
        let c2 := replaceAll c1 tagToRemove []
        updateMemoContent acc m.id (trimSpace c2)) st
    (.ok ⟨memos.map (·.uid), deletedTagPaths⟩, st')
  | .deleteRelatedMemos =>
    let st' := memos.foldl (fun acc m => deleteMemo acc m.id) st
    (.ok ⟨memos.map (·.uid), deletedTagPaths⟩, st')
  | .unspecified => (.error .invalidArgument, st)

/-! ### Claim C9 -/

/-- **C9.**  A `DeleteTag` call whose strategy is neither
`REMOVE_FROM_CONTENT` nor `DELETE_RELATED_MEMOS` fails with
InvalidArgument and leaves the store exactly as it was. -/
theorem deleteTag_invalid_strategy (st : List MemoE) (tagPath : Str)
    (s : DeleteStrategy) (h1 : s ≠ .removeFromContent)
    (h2 : s ≠ .deleteRelatedMemos) :
    DeleteTag st tagPath s = (.error .invalidArgument, st) := by
  cases s with
  | unspecified => rfl
  | removeFromContent => exact absurd rfl h1
  | deleteRelatedMemos => exact absurd rfl h2

/-- Witness for C9 at a concrete one-memo store. -/
theorem deleteTag_invalid_strategy_witness :
    DeleteTag [⟨1, "m1".toList, "see #work".toList, [buildTagNode "work".toList]⟩]
        "work".toList .unspecified
      = (.error .invalidArgument,
         [⟨1, "m1".toList, "see #work".toList, [buildTagNode "work".toList]⟩]) :=
  deleteTag_invalid_strategy _ _ _ (by decide) (by decide)

/-- Response of `BatchDeleteMemosByTag`. -/
structure BatchDeleteResp where
  deletedMemoIds : List Str
  deletedCount : Nat
  affectedTagPaths : List Str
deriving DecidableEq, Repr

/-- The batch-delete selection (lines 672-687): exact cache membership, or,
with `includeChildren`, the prefixed filter. -/
def selectBatch (st : List MemoE) (tagPath : Str) (includeChildren : Bool) :
    List MemoE :=
  if includeChildren then listMemosWithTagPrefixed st tagPath
  else listMemosWithTag st tagPath

/-- The dry-run descendant collection (lines 701-718): every cache name of
a selected memo having the request path as a *plain string prefix*
(`strings.HasPrefix`, no `/`-boundary) is put in a set, and all members
other than the path itself are reported.  The Go set is modelled as a
deduplicated list in insertion order. -/
def dryRunChildPaths (memos : List MemoE) (tagPath : Str) : List Str :=
  (memos.foldl
    (fun acc m =>
      m.tags.foldl
        (fun acc t =>
          if tagPath.isPrefixOf t.name && !(acc.contains t.name) then acc ++ [t.name]
          else acc)
        acc)
    []).filter (fun q => !(q == tagPath))

/-- `BatchDeleteMemosByTag` (lines 662-763): require a nonempty path,
select (exact or prefixed), then either report without mutating (`dryRun`)
or delete every selected memo while collecting the affected paths from the
caches of the memos actually removed. -/
def BatchDeleteMemosByTag (st : List MemoE) (tagPath : Str)
    (includeChildren dryRun : Bool) : Except GrpcCode BatchDeleteResp × List MemoE :=
  if tagPath = [] then (.error .invalidArgument, st)
  else
    let memos := selectBatch st tagPath includeChildren
    if dryRun then
      let deletedMemoIds := memos.map (·.uid)
      let affectedTagPaths :=
        if includeChildren then tagPath :: dryRunChildPaths memos tagPath
        else [tagPath]
      (.ok ⟨deletedMemoIds, deletedMemoIds.length, affectedTagPaths⟩, st)
    else
      let affected := memos.foldl
        (fun acc m =>
          m.tags.foldl
            (fun acc t =>
              if includeChildren && tagPath.isPrefixOf t.name then
                if acc.contains t.name then acc else acc ++ [t.name]
              else if t.name == tagPath then
                if acc.contains t.name then acc else acc ++ [t.name]
              else acc)
            acc)
        [tagPath]
      let st' := memos.foldl (fun acc m => deleteMemo acc m.id) st
      (.ok ⟨memos.map (·.uid), (memos.map (·.uid)).length, affected⟩, st')

/-! ### Claim C8 -/

/-- **C8.**  A dry-run batch delete mutates nothing: the resulting store is
exactly the input store, while the response already carries the full
would-be-deleted uid list (all selected memos) and its count. -/
theorem batchDelete_dryRun_frame (st : List MemoE) (tagPath : Str)
    (includeChildren : Bool) (hp : tagPath ≠ []) :
    ∃ resp, BatchDeleteMemosByTag st tagPath includeChildren true = (.ok resp, st) ∧
      resp.deletedMemoIds = (selectBatch st tagPath includeChildren).map (·.uid) ∧
      resp.deletedCount = (selectBatch st tagPath includeChildren).length := by
  refine ⟨⟨(selectBatch st tagPath includeChildren).map (·.uid),
    ((selectBatch st tagPath includeChildren).map (·.uid)).length,
    if includeChildren then
      tagPath :: dryRunChildPaths (selectBatch st tagPath includeChildren) tagPath
    else [tagPath]⟩, ?_, rfl, by simp⟩
  unfold BatchDeleteMemosByTag
  rw [if_neg hp]
  rfl

/-- Witness for C8 at a concrete two-memo store. -/
theorem batchDelete_dryRun_frame_witness :
    ∃ resp, BatchDeleteMemosByTag
        [⟨1, "m1".toList, [], [buildTagNode "work".toList]⟩,
         ⟨2, "m2".toList, [], [buildTagNode "home".toList]⟩]
        "work".toList false true
      = (.ok resp,
         [⟨1, "m1".toList, [], [buildTagNode "work".toList]⟩,
          ⟨2, "m2".toList, [], [buildTagNode "home".toList]⟩]) ∧
      resp.deletedMemoIds
        = (selectBatch
            [⟨1, "m1".toList, [], [buildTagNode "work".toList]⟩,
             ⟨2, "m2".toList, [], [buildTagNode "home".toList]⟩]
            "work".toList false).map (·.uid) ∧
      resp.deletedCount
        = (selectBatch
            [⟨1, "m1".toList, [], [buildTagNode "work".toList]⟩,
             ⟨2, "m2".toList, [], [buildTagNode "home".toList]⟩]
            "work".toList false).length :=
  batchDelete_dryRun_frame _ _ _ (by decide)

/-! ### Claim C3 -/

/-- **C3 counterexample.**  One entity whose cache is `{/work/a, /workshop}`
and a dry-run batch delete of `/work` with `includeChildren`: the entity is
selected through `/work/a` (a genuine `/`-boundary descendant), and the
report then includes `/workshop` as an affected path, because the dry-run
reporting tests `strings.HasPrefix(tag, "/work")` with no `/` boundary —
contradicting the claim that a path merely extending `tagPath` without a
`/` boundary is never reported. -/
theorem batchDelete_reports_nonboundary_extension :
    BatchDeleteMemosByTag
        [⟨1, "m1".toList, [],
          [buildTagNode "work/a".toList, buildTagNode "/workshop".toList]⟩]
        "/work".toList true true
      = (.ok ⟨["m1".toList], 1,
          ["/work".toList, "/work/a".toList, "/workshop".toList]⟩,
         [⟨1, "m1".toList, [],
          [buildTagNode "work/a".toList, buildTagNode "/workshop".toList]⟩]) ∧
      "/workshop".toList
        ∈ (["/work".toList, "/work/a".toList, "/workshop".toList] : List Str) := by
  constructor
  · decide
  · decide

private lemma mem_collectTags (tagPath : Str) (tags : List TagNodeP) :
    ∀ (acc : List Str) (q : Str),
      (q ∈ tags.foldl
        (fun acc t =>
          if tagPath.isPrefixOf t.name && !(acc.contains t.name) then acc ++ [t.name]
          else acc)
        acc) ↔
      (q ∈ acc ∨ (tagPath.isPrefixOf q = true ∧ q ∈ tags.map (·.name))) := by
  induction tags with
  | nil => intro acc q; simp
  | cons t rest ih =>
    intro acc q
    rw [List.foldl_cons, ih]
    by_cases hpre : tagPath.isPrefixOf t.name = true
    · by_cases hdup : t.name ∈ acc
      · have hstep : (if tagPath.isPrefixOf t.name && !(acc.contains t.name)
            then acc ++ [t.name] else acc) = acc := by
          simp [hpre, hdup]
        rw [hstep]
        simp only [List.map_cons, List.mem_cons]
        constructor
        · rintro (hq | ⟨h1, h2⟩)
          · exact Or.inl hq
          · exact Or.inr ⟨h1, Or.inr h2⟩
        · rintro (hq | ⟨h1, (rfl | h2)⟩)
          · exact Or.inl hq
          · exact Or.inl hdup
          · exact Or.inr ⟨h1, h2⟩
      · have hstep : (if tagPath.isPrefixOf t.name && !(acc.contains t.name)
            then acc ++ [t.name] else acc) = acc ++ [t.name] := by
          simp [hpre, hdup]
        rw [hstep]
        simp only [List.map_cons, List.mem_cons, List.mem_append,
          List.not_mem_nil, or_false]
        constructor
        · rintro ((hq | rfl) | ⟨h1, h2⟩)
          · exact Or.inl hq
          · exact Or.inr ⟨hpre, Or.inl rfl⟩
          · exact Or.inr ⟨h1, Or.inr h2⟩
        · rintro (hq | ⟨h1, (rfl | h2)⟩)
          · exact Or.inl (Or.inl hq)
          · exact Or.inl (Or.inr rfl)
          · exact Or.inr ⟨h1, h2⟩
    · have hstep : (if tagPath.isPrefixOf t.name && !(acc.contains t.name)
          then acc ++ [t.name] else acc) = acc := by
        simp [hpre]
      rw [hstep]
      simp only [List.map_cons, List.mem_cons]
      constructor
      · rintro (hq | ⟨h1, h2⟩)
        · exact Or.inl hq
        · exact Or.inr ⟨h1, Or.inr h2⟩
      · rintro (hq | ⟨h1, (rfl | h2)⟩)
        · exact Or.inl hq
        · exact absurd h1 hpre
        · exact Or.inr ⟨h1, h2⟩

private lemma mem_collectPrefixed (tagPath : Str) (memos : List MemoE) :
    ∀ (acc : List Str) (q : Str),
      (q ∈ memos.foldl
        (fun acc m =>
          m.tags.foldl
            (fun acc t =>
              if tagPath.isPrefixOf t.name && !(acc.contains t.name) then acc ++ [t.name]
              else acc)
            acc)
        acc) ↔
      (q ∈ acc ∨ (tagPath.isPrefixOf q = true ∧ ∃ m ∈ memos, q ∈ m.tags.map (·.name))) := by
  induction memos with
  | nil => intro acc q; simp
  | cons m rest ih =>
    intro acc q
    rw [List.foldl_cons, ih, mem_collectTags]
    constructor
    · rintro ((hq | ⟨h1, h2⟩) | ⟨h1, m', hm', h2⟩)
      · exact Or.inl hq
      · exact Or.inr ⟨h1, m, List.mem_cons_self m rest, h2⟩
      · exact Or.inr ⟨h1, m', List.mem_cons_of_mem _ hm', h2⟩
    · rintro (hq | ⟨h1, m', hm', h2⟩)
      · exact Or.inl (Or.inl hq)
      · rcases List.mem_cons.mp hm' with rfl | hm''
        · exact Or.inl (Or.inr ⟨h1, h2⟩)
        · exact Or.inr ⟨h1, m', hm'', h2⟩

private lemma mem_dryRunChildPaths (memos : List MemoE) (tagPath q : Str) :
    q ∈ dryRunChildPaths memos tagPath ↔
      (tagPath.isPrefixOf q = true ∧ q ≠ tagPath ∧
        ∃ m ∈ memos, q ∈ m.tags.map (·.name)) := by
  unfold dryRunChildPaths
  rw [List.mem_filter, mem_collectPrefixed]
  simp only [List.not_mem_nil, false_or]
  constructor
  · rintro ⟨⟨h1, h2⟩, hne⟩
    exact ⟨h1, by simpa using hne, h2⟩
  · rintro ⟨h1, hne, h2⟩
    exact ⟨⟨h1, h2⟩, by simpa using hne⟩

private lemma batchDelete_dryRun_eq (st : List MemoE) (tagPath : Str)
    (hp : tagPath ≠ []) :
    BatchDeleteMemosByTag st tagPath true true
      = (.ok ⟨(listMemosWithTagPrefixed st tagPath).map (·.uid),
          ((listMemosWithTagPrefixed st tagPath).map (·.uid)).length,
          tagPath :: dryRunChildPaths (listMemosWithTagPrefixed st tagPath) tagPath⟩,
         st) := by
  unfold BatchDeleteMemosByTag selectBatch
  rw [if_neg hp]
  rfl

/-- **C3 (amended).**  With `includeChildren`, an entity is selected iff its
cache contains some path equal to `tagPath` or having `tagPath + "/"` as a
prefix (the boundary-aware filter); but the dry-run report of affected
paths uses a plain `strings.HasPrefix` test, so `affectedTagPaths` holds
exactly `tagPath` itself plus every cache name of a *selected* entity that
has `tagPath` as a plain string prefix — a non-boundary extension such as
`/workshop` is reported whenever its entity is also selected through a
genuinely matching path. -/
theorem batchDelete_dryRun_affected_iff (st : List MemoE) (tagPath q : Str)
    (resp : BatchDeleteResp) (stAfter : List MemoE) (hp : tagPath ≠ [])
    (hrun : BatchDeleteMemosByTag st tagPath true true = (.ok resp, stAfter)) :
    q ∈ resp.affectedTagPaths ↔
      (q = tagPath ∨
        (tagPath.isPrefixOf q = true ∧ q ≠ tagPath ∧
          ∃ m ∈ listMemosWithTagPrefixed st tagPath, q ∈ m.tags.map (·.name))) := by
  rw [batchDelete_dryRun_eq st tagPath hp] at hrun
  injection hrun with h1 h2
  injection h1 with h3
  subst h3
  show q ∈ tagPath :: dryRunChildPaths (listMemosWithTagPrefixed st tagPath) tagPath ↔ _
  rw [List.mem_cons, mem_dryRunChildPaths]

/-- Witness for C3 (amended) at the `{/work/a, /workshop}` store. -/
theorem batchDelete_dryRun_affected_iff_witness :
    ("/workshop".toList
        ∈ (⟨["m1".toList], 1,
            ["/work".toList, "/work/a".toList, "/workshop".toList]⟩ :
            BatchDeleteResp).affectedTagPaths) ↔
      ("/workshop".toList = "/work".toList ∨
        ("/work".toList.isPrefixOf "/workshop".toList = true ∧
          "/workshop".toList ≠ "/work".toList ∧
          ∃ m ∈ listMemosWithTagPrefixed
              [⟨1, "m1".toList, [],
                [buildTagNode "work/a".toList, buildTagNode "/workshop".toList]⟩]
              "/work".toList,
            "/workshop".toList ∈ m.tags.map (·.name))) :=
  batchDelete_dryRun_affected_iff
    [⟨1, "m1".toList, [],
      [buildTagNode "work/a".toList, buildTagNode "/workshop".toList]⟩]
    "/work".toList "/workshop".toList
    ⟨["m1".toList], 1, ["/work".toList, "/work/a".toList, "/workshop".toList]⟩
    [⟨1, "m1".toList, [],
      [buildTagNode "work/a".toList, buildTagNode "/workshop".toList]⟩]
    (by decide) (by decide)

/-! ## Structural tag remover (`removeTagFromNodes`, single-entity delete) -/

/-- `removeTagFromNodes` (memo service, lines 890-943): rebuild the node
list recursively — a `Tag` leaf whose content equals the target is omitted
entirely (no replacement token, no compensating whitespace), every
container kind has its children rebuilt by the same procedure, and all
other leaf kinds pass through unchanged. -/
def removeTagFromNodes (nodes : List Node) (tagToRemove : Str) : List Node :=
  match nodes with
  | [] => []
  | node :: rest =>
    (match node with
      | .tag c => if c ≠ tagToRemove then [Node.tag c] else []
      | .paragraph cs => [Node.paragraph (removeTagFromNodes cs tagToRemove)]
      | .heading cs => [Node.heading (removeTagFromNodes cs tagToRemove)]
      | .blockquote cs => [Node.blockquote (removeTagFromNodes cs tagToRemove)]
      | .list cs => [Node.list (removeTagFromNodes cs tagToRemove)]
      | .orderedListItem cs => [Node.orderedListItem (removeTagFromNodes cs tagToRemove)]
      | .unorderedListItem cs => [Node.unorderedListItem (removeTagFromNodes cs tagToRemove)]
      | .taskListItem b cs => [Node.taskListItem b (removeTagFromNodes cs tagToRemove)]
      | .bold cs => [Node.bold (removeTagFromNodes cs tagToRemove)]
      | .italic cs => [Node.italic (removeTagFromNodes cs tagToRemove)]
      | other => [other]) ++ removeTagFromNodes rest tagToRemove

/-- Modelled from the spec: the external Content Serializer
(`restore.Restore` of the gomark library, absent from these sources).
Inline leaves restore to their text — a `Tag` to `#` followed by its
content — and containers to the concatenation of their restored children;
block separators do not arise in the single-paragraph examples treated
here. -/
def restoreNodes : List Node → Str
  | [] => []
  | node :: rest =>
    (match node with
      | .text c => c
      | .tag c => '#' :: c
      | .link u => u
      | .autoLink u => u
      | .codeBlock c => c
      | .embeddedContent r => r
      | .paragraph cs => restoreNodes cs
      | .heading cs => restoreNodes cs
      | .blockquote cs => restoreNodes cs
      | .list cs => restoreNodes cs
      | .orderedListItem cs => restoreNodes cs
      | .unorderedListItem cs => restoreNodes cs
      | .taskListItem _ cs => restoreNodes cs
      | .bold cs => restoreNodes cs
      | .italic cs => restoreNodes cs) ++ restoreNodes rest

/-! ### Claim C4 -/

/-- Modelled from the spec: the external Content Parser's tree for
`"Meeting notes #work are important"` — one paragraph holding the text up
to the marker (with its trailing space), the `work` tag leaf, and the text
`" are important"` (with its leading space). -/
def exampleATree : List Node :=
  [.paragraph [.text "Meeting notes ".toList, .tag "work".toList,
    .text " are important".toList]]

/-- **C4.**  Running the structural remover for tag `work` on the parsed
tree of `"Meeting notes #work are important"` and re-serializing yields
exactly `"Meeting notes  are important"`: the tag leaf is dropped with no
compensating whitespace, so the space before the marker and the space
after it remain adjacent — this variant performs no text-level cleanup. -/
theorem removeTag_exampleA :
    restoreNodes (removeTagFromNodes exampleATree "work".toList)
      = "Meeting notes  are important".toList := by
  simp +decide [exampleATree, removeTagFromNodes, restoreNodes]
